import Mathlib

/-!
Verification of the assetgen content-addressed asset packer, its manifest
builder, the image-optimization worker pool, and the IPC callback bridge.

The Go sources embedded here:
* package `pack` (Pack / Manifest / ManifestInverted, `src/unnamed/part_014`),
* the IPC server (`src/gen/ipc.go`, `src/gen/ipc/ipc.go`),
* the `addImages` worker pool (`src/gen/script.go`).

Bytes are modelled as `Nat` (each < 256), Go strings as Lean `String`
(all strings handled by the claims are ASCII, so Go's byte indexing and
Lean's character indexing agree), Go maps as association lists, and the
maps returned to callers are canonicalized by sorting, since a Go map is
unordered.
-/

namespace Assetgen

/-! ### MD5 (crypto/md5), executable -/

/-- Reduction modulo 2^32, the word size of MD5 arithmetic. -/
def m32 (x : Nat) : Nat := x % 4294967296

/-- Rotate a 32-bit word left by `c` bits (for `x < 2^32`, `c ≤ 32`). -/
def rotl32 (x c : Nat) : Nat := (x * 2 ^ c) % 4294967296 + x / 2 ^ (32 - c)

/-- Bitwise complement within 32 bits. -/
def not32 (x : Nat) : Nat := Nat.xor x 4294967295

/-- The 64 MD5 sine-derived round constants. -/
def md5K : List Nat :=
  [3614090360, 3905402710, 606105819, 3250441966, 4118548399, 1200080426,
   2821735955, 4249261313, 1770035416, 2336552879, 4294925233, 2304563134,
   1804603682, 4254626195, 2792965006, 1236535329,
   4129170786, 3225465664, 643717713, 3921069994, 3593408605, 38016083,
   3634488961, 3889429448, 568446438, 3275163606, 4107603335, 1163531501,
   2850285829, 4243563512, 1735328473, 2368359562,
   4294588738, 2272392833, 1839030562, 4259657740, 2763975236, 1272893353,
   4139469664, 3200236656, 681279174, 3936430074, 3572445317, 76029189,
   3654602809, 3873151461, 530742520, 3299628645,
   4096336452, 1126891415, 2878612391, 4237533241, 1700485571, 2399980690,
   4293915773, 2240044497, 1873313359, 4264355552, 2734768916, 1309151649,
   4149444226, 3174756917, 718787259, 3951481745]

/-- The 64 MD5 per-round left-rotation amounts. -/
def md5S : List Nat :=
  [7, 12, 17, 22, 7, 12, 17, 22, 7, 12, 17, 22, 7, 12, 17, 22,
   5, 9, 14, 20, 5, 9, 14, 20, 5, 9, 14, 20, 5, 9, 14, 20,
   4, 11, 16, 23, 4, 11, 16, 23, 4, 11, 16, 23, 4, 11, 16, 23,
   6, 10, 15, 21, 6, 10, 15, 21, 6, 10, 15, 21, 6, 10, 15, 21]

/-- Running state of the MD5 compression function: four 32-bit words. -/
structure MD5State where
  a : Nat
  b : Nat
  c : Nat
  d : Nat

/-- Initial MD5 chaining values. -/
def md5Init : MD5State := ⟨1732584193, 4023233417, 2562383102, 271733878⟩

/-- One of the 64 MD5 rounds; `M` is the 16-word message block. -/
def md5round (M : List Nat) (st : MD5State) (i : Nat) : MD5State :=
  let fg : Nat × Nat :=
    if i < 16 then (Nat.lor (Nat.land st.b st.c) (Nat.land (not32 st.b) st.d), i)
    else if i < 32 then
      (Nat.lor (Nat.land st.d st.b) (Nat.land (not32 st.d) st.c), (5 * i + 1) % 16)
    else if i < 48 then (Nat.xor (Nat.xor st.b st.c) st.d, (3 * i + 5) % 16)
    else (Nat.xor st.c (Nat.lor st.b (not32 st.d)), (7 * i) % 16)
  let f := m32 (fg.1 + st.a + md5K.getD i 0 + M.getD fg.2 0)
  ⟨st.d, m32 (st.b + rotl32 f (md5S.getD i 0)), st.b, st.c⟩

/-- Little-endian 32-bit word at word index `j` of a byte list. -/
def word32At (bs : List Nat) (j : Nat) : Nat :=
  bs.getD (4 * j) 0 + 256 * bs.getD (4 * j + 1) 0 +
    65536 * bs.getD (4 * j + 2) 0 + 16777216 * bs.getD (4 * j + 3) 0

/-- Decode a 64-byte block into its 16 little-endian words. -/
def blockWords (bs : List Nat) : List Nat := (List.range 16).map (word32At bs)

/-- MD5 compression of a single 64-byte block. -/
def md5block (st : MD5State) (bs : List Nat) : MD5State :=
  let M := blockWords bs
  let e := (List.range 64).foldl (md5round M) st
  ⟨m32 (st.a + e.a), m32 (st.b + e.b), m32 (st.c + e.c), m32 (st.d + e.d)⟩

/-- Fold the MD5 compression over a padded message, 64 bytes at a time.
The fuel argument (any bound on the block count, decremented once per
block) keeps the recursion structural; callers pass the byte count. -/
def md5blocksF : Nat → MD5State → List Nat → MD5State
  | 0, st, _ => st
  | _, st, [] => st
  | fuel + 1, st, x :: rest =>
    md5blocksF fuel (md5block st ((x :: rest).take 64)) (rest.drop 63)

/-- Fold the MD5 compression over a padded message, 64 bytes at a time. -/
def md5blocks (st : MD5State) (bs : List Nat) : MD5State := md5blocksF bs.length st bs

/-- Little-endian byte encoding of `v`, `k` bytes long. -/
def leBytes (v k : Nat) : List Nat := (List.range k).map fun i => v / 2 ^ (8 * i) % 256

/-- MD5 padding: a 1-bit, zeros to 56 mod 64, then the 64-bit bit length. -/
def md5pad (msg : List Nat) : List Nat :=
  msg ++ 128 :: List.replicate ((120 - (msg.length + 1) % 64) % 64) 0 ++
    leBytes (8 * msg.length) 8

/-- MD5 digest of a byte list: 16 bytes. -/
def md5sum (msg : List Nat) : List Nat :=
  let st := md5blocks md5Init (md5pad msg)
  leBytes st.a 4 ++ leBytes st.b 4 ++ leBytes st.c 4 ++ leBytes st.d 4

/-- Lowercase hexadecimal digit for `n < 16`. -/
def hexDigit (n : Nat) : Char := if n < 10 then Char.ofNat (48 + n) else Char.ofNat (87 + n)

/-- Lowercase hex rendering of a byte list, two digits per byte. -/
def bytesToHex (bs : List Nat) : List Char :=
  bs.foldr (fun x acc => hexDigit (x / 16) :: hexDigit (x % 16) :: acc) []

/-- Go's `fmt.Sprintf("%x", md5.Sum(buf))`: lowercase hex MD5 of a byte list. -/
def md5hex (msg : List Nat) : String := String.mk (bytesToHex (md5sum msg))

/-- UTF-8 encoding of one character, as bytes. -/
def utf8Char (c : Char) : List Nat :=
  let n := c.toNat
  if n < 128 then [n]
  else if n < 2048 then [192 + n / 64, 128 + n % 64]
  else if n < 65536 then [224 + n / 4096, 128 + n / 64 % 64, 128 + n % 64]
  else [240 + n / 262144, 128 + n / 4096 % 64, 128 + n / 64 % 64, 128 + n % 64]

/-- UTF-8 bytes of a string, Go's `[]byte(s)`. -/
def strBytes (s : String) : List Nat := (s.toList.map utf8Char).flatten

/-- MD5 hex digest of a string's UTF-8 bytes. -/
def md5hexS (s : String) : String := md5hex (strBytes s)

/-! ### Path helpers (strings / path/filepath), executable -/

/-- Go's `strings.TrimLeft(s, "/")`: drop every leading slash. -/
def trimLeftSlash (s : String) : String := String.mk (s.toList.dropWhile (· = '/'))

/-- Name normalization applied by `Pack.Pack`: `"/" + strings.TrimLeft(name, "/")`. -/
def normalize (s : String) : String := "/" ++ trimLeftSlash s

/-- Characters of `l` with trailing path separators removed. -/
def dropTrailSep (l : List Char) : List Char := (l.reverse.dropWhile (· = '/')).reverse

/-- Characters of `l` after its last path separator. -/
def afterLastSep (l : List Char) : List Char := (l.reverse.takeWhile (· ≠ '/')).reverse

/-- Go's `filepath.Base`: "." for the empty path, trailing slashes stripped,
then everything after the last slash, "/" if only slashes remain. -/
def baseName (s : String) : String :=
  if s = "" then "." else
  let b := afterLastSep (dropTrailSep s.toList)
  if b = [] then "/" else String.mk b

/-- Go's `filepath.Ext`: the suffix starting at the final dot in the final
path element, or "" if the final element has no dot. -/
def extName (s : String) : String :=
  let r := s.toList.reverse.takeWhile (· ≠ '/')
  if r.dropWhile (· ≠ '.') = [] then ""
  else String.mk ('.' :: (r.takeWhile (· ≠ '.')).reverse)

/-- Go's string slice `s[:n]`, which panics (`none`) when `n` exceeds the
length. The strings sliced by `Manifest` are ASCII hex digests, so byte
and character counts agree. -/
def goSlice (s : String) (n : Nat) : Option String :=
  if n ≤ s.length then some (String.mk (s.toList.take n)) else none

/-! ### Association lists standing in for Go maps -/

/-- Lookup in an association list: the Go map read `l[k]` (comma-ok form). -/
def lookupA {α : Type} : List (String × α) → String → Option α
  | [], _ => none
  | (k', v) :: t, k => if k' = k then some v else lookupA t k

/-- Go map assignment `l[k] = v`: replace the binding in place or append. -/
def setA {α : Type} : List (String × α) → String → α → List (String × α)
  | [], k, v => [(k, v)]
  | (k', v') :: t, k, v => if k' = k then (k, v) :: t else (k', v') :: setA t k v

/-! ### The `pack` package (src/unnamed/part_014) -/

/-- State of an asset packer. `fs` is the backing store restricted to its
regular files (directories are recreated on demand by `MkdirAll` and are
skipped by `Manifest`'s walk); `h` is the content-hash table `p.h`;
`manifest` is the manifest filename field. -/
structure Pack where
  fs : List (String × List Nat)
  h : List (String × String)
  manifest : String

/-- Go `pack.New(fs)`: empty hash table, manifest name "manifest.json".
The walk of a fresh in-memory filesystem sees no files. -/
def Pack.New : Pack := ⟨[], [], "manifest.json"⟩

/-- Go `pack.NewBase(base)`: the backing store is a real directory, so the
store may already hold files that were never added through `Pack`;
`initial` lists those pre-existing files. The hash table starts empty. -/
def Pack.NewBase (initial : List (String × List Nat)) : Pack :=
  ⟨initial, [], "manifest.json"⟩

/-- Go `(*Pack).Pack(name, r)` (lower-case here so the method does not
shadow the type name): normalizes the name to a single leading
slash, writes the payload into the store, and records
`p.h[name] = fmt.Sprintf("%x", md5.Sum(buf))`. -/
def Pack.pack (p : Pack) (name : String) (buf : List Nat) : Pack :=
  let n := normalize name
  { p with fs := setA p.fs n buf, h := setA p.h n (md5hex buf) }

/-- Packing a list of (name, contents) pairs in order, via `PackBytes`. -/
def Pack.packList (p : Pack) (ops : List (String × List Nat)) : Pack :=
  ops.foldl (fun q op => q.pack op.1 op.2) p

/-- Go map read `p.h[n]`, which yields "" when the key is absent. -/
def Pack.hstr (p : Pack) (n : String) : String := (lookupA p.h n).getD ""

/-- Hash of the walked path with leading slashes removed:
`fmt.Sprintf("%x", md5.Sum([]byte(strings.TrimLeft(n, "/"))))`. -/
def fpathHash (n : String) : String := md5hexS (trimLeftSlash n)

/-- Canonical walk order of the stored file names. `afero.Walk` visits
directory entries in sorted order; since the Go result is an unordered
map, the embedding canonicalizes by sorting the full paths. -/
def Pack.walkKeys (p : Pack) : List String :=
  List.insertionSort (· ≤ ·) (p.fs.map Prod.fst)

/-- Body of `Manifest`'s walk over the given file names: skips names whose
base equals the manifest filename, otherwise emits
`m[n] = fh[:6] + "." + p.h[n][:6] + filepath.Ext(n)`. A `none` result is
the run-time panic raised by `p.h[n][:6]` when `p.h[n]` is shorter than
six bytes (in particular when `n` was never packed). -/
def Pack.manifestEntries (p : Pack) : List String → Option (List (String × String))
  | [] => some []
  | n :: rest =>
    if baseName n = p.manifest then p.manifestEntries rest
    else
      match goSlice (fpathHash n) 6, goSlice (p.hstr n) 6 with
      | some fh6, some ch6 =>
        (p.manifestEntries rest).map (fun m => (n, fh6 ++ "." ++ ch6 ++ extName n) :: m)
      | _, _ => none

/-- Go `(*Pack).Manifest()`: walk every stored file and build the
fingerprint map, canonicalized as an assoc list sorted by key. `none` is
a panic (not an error return) during the walk. -/
def Pack.Manifest (p : Pack) : Option (List (String × String)) :=
  p.manifestEntries p.walkKeys

/-- Order on manifest entries: by key, ties by value. Used only to pick a
canonical assoc-list representative of an unordered Go map. -/
def pleb (a b : String × String) : Prop :=
  a.1 < b.1 ∨ (a.1 = b.1 ∧ a.2 ≤ b.2)

instance : DecidableRel pleb := fun a b =>
  inferInstanceAs (Decidable (a.1 < b.1 ∨ (a.1 = b.1 ∧ a.2 ≤ b.2)))

/-- Canonical representative of a Go `map[string]string` given as pairs. -/
def sortPairs (l : List (String × String)) : List (String × String) :=
  List.insertionSort pleb l

/-- Inversion step of `ManifestInverted`: `for v, k := range m { rev[k] = v }`.
With injective values (the only case the spec claims anything about) no
binding is overwritten, so the result is the swap of every pair,
canonicalized; with colliding values Go's result would additionally
depend on random map iteration order. -/
def invertMap (m : List (String × String)) : List (String × String) :=
  sortPairs (m.map Prod.swap)

/-- Go `(*Pack).ManifestInverted()`: invert the manifest. -/
def Pack.ManifestInverted (p : Pack) : Option (List (String × String)) :=
  p.Manifest.map invertMap

/-- First option if present, otherwise the fallback. -/
def orD {α : Type} (o fallback : Option α) : Option α :=
  match o with
  | some x => some x
  | none => fallback

/-- Contents most recently packed under normalized name `key` by `ops`. -/
def lastPacked : List (String × List Nat) → String → Option (List Nat)
  | [], _ => none
  | op :: rest, key =>
    orD (lastPacked rest key) (if normalize op.1 = key then some op.2 else none)

/-- Fingerprint formula stated by the spec:
`hex(md5(path with leading slashes removed))[:6] + "." + hex(md5(content))[:6] + ext(path)`,
with the content hash recomputed from the stored bytes. -/
def fingerprintSpec (n : String) (b : List Nat) : String :=
  String.mk ((fpathHash n).toList.take 6) ++ "." ++
    String.mk ((md5hex b).toList.take 6) ++ extName n

/-! ### The IPC callback bridge (src/gen/ipc.go, src/gen/ipc/ipc.go) -/

/-- JSON values as decoded by `encoding/json` into `interface{}`:
null, booleans, numbers, strings, `[]interface{}`, `map[string]interface{}`.
Numbers are idealized as integers; no claim depends on numeric values. -/
inductive Jval where
  | null : Jval
  | bool : Bool → Jval
  | num : Int → Jval
  | str : String → Jval
  | arr : List Jval → Jval
  | obj : List (String × Jval) → Jval

/-- Decoded request envelope `IpcMsg { Type string; Params map[string]interface{} }`. -/
structure IpcMsg where
  type : String
  params : List (String × Jval)

/-- Callback map `IpcCallbackMap`: names bound to functions returning a
value or an error, Go's `func(...interface{}) (interface{}, error)`. -/
def IpcCallbackMap : Type := List (String × (List Jval → Except String Jval))

/-- Go `(*IpcServer).doCall`: assert `params["name"]` is a string, assert
`params["args"]` is a list, look the name up in the callback map, and
invoke the callback. Each failed step is an error value, never a panic. -/
def doCall (m : IpcCallbackMap) (v : IpcMsg) : Except String Jval :=
  match lookupA v.params "name" with
  | some (Jval.str name) =>
    match lookupA v.params "args" with
    | some (Jval.arr args) =>
      match lookupA m name with
      | some f => f args
      | none => Except.error "invalid func name"
    | _ => Except.error "missing args in call"
  | _ => Except.error "missing name in call"

/-- JSON encoding of the `funcs []string` slice built by "list-functions":
the nil slice (empty callback map) encodes as JSON `null`, a non-empty
slice as an array of strings. -/
def goStringsJson (l : List String) : Jval :=
  if l = [] then Jval.null else Jval.arr (l.map Jval.str)

/-- Response map `ret` computed by `(*IpcServer).handle` for one decoded
request: "list-functions" lists the registered names, "call" dispatches
through `doCall`, anything else is `{"error":"unknown request type"}`. -/
def handleMsg (m : IpcCallbackMap) (v : IpcMsg) : List (String × Jval) :=
  if v.type = "list-functions" then [("result", goStringsJson (m.map Prod.fst))]
  else if v.type = "call" then
    match doCall m v with
    | Except.error e => [("error", Jval.str e)]
    | Except.ok r => [("result", r)]
  else [("error", Jval.str "unknown request type")]

/-- Observable outcome of one connection: either exactly one JSON object
response is encoded back to the client, or the handler returns early and
the deferred `conn.Close()` runs with nothing written. -/
inductive ConnOutcome where
  | response : List (String × Jval) → ConnOutcome
  | closedNoResponse : ConnOutcome

/-- Whether the connection outcome wrote anything back to the client. -/
def ConnOutcome.wroteResponse : ConnOutcome → Bool
  | response _ => true
  | closedNoResponse => false

/-- Per-connection behaviour of `(*IpcServer).handle` on the first request
line. JSON decoding itself happens in the standard library, so its result
is the parameter: `Except.error` is a malformed request line, on which the
code logs and returns the error without encoding any response; a decoded
message gets exactly one response, then the handler returns. -/
def handleConn (m : IpcCallbackMap) (decoded : Except String IpcMsg) : ConnOutcome :=
  match decoded with
  | Except.error _ => ConnOutcome.closedNoResponse
  | Except.ok v => ConnOutcome.response (handleMsg m v)

/-! ### The image-optimization worker pool (Script.addImages)

`addImages` preloads a buffered channel with the changed items, closes it,
starts `s.flags.Workers` goroutines under `errgroup.WithContext`, and each
goroutine loops through `select { case <-ctxt.Done(): return ctxt.Err();
case fn := <-ch: if fn == "" { return nil }; optimizeImage(fn) }`. The
embedding is a small-step machine over explicit scheduler actions: Go
resolves a `select` whose cases are both ready by uniform random choice,
so both branches are represented as distinct actions whenever enabled. -/

/-- An error value returned by a worker goroutine: either the failure of
`optimizeImage` on an item, or `ctxt.Err()` (context.Canceled). -/
inductive PoolErr where
  | fail : Nat → PoolErr
  | canceled : PoolErr
deriving DecidableEq

/-- Status of one worker goroutine. -/
inductive WStatus where
  | selecting : WStatus
  | running : Nat → WStatus
  | exited : Option PoolErr → WStatus
deriving DecidableEq

/-- State of the worker pool: the remaining (already closed) channel
contents, the group's cancellation flag and recorded first error, the
log of every error returned by a worker in order, the workers, and a
count of items pulled after cancellation was already in effect. -/
structure PoolState where
  queue : List Nat
  canceled : Bool
  firstErr : Option PoolErr
  errLog : List PoolErr
  workers : List WStatus
  startedAfterCancel : Nat
deriving DecidableEq

/-- errgroup's bookkeeping when a goroutine returns a non-nil error: the
first error is stored and cancels the shared context (`errOnce.Do`);
later errors are dropped. The log keeps all of them, in order. -/
def recordErr (s : PoolState) (e : PoolErr) : PoolState :=
  match s.firstErr with
  | some _ => { s with errLog := s.errLog ++ [e] }
  | none => { s with errLog := s.errLog ++ [e], firstErr := some e, canceled := true }

/-- Worker `w`'s status, if it exists. -/
def PoolState.getW (s : PoolState) (w : Nat) : Option WStatus := s.workers.get? w

/-- Replace worker `w`'s status. -/
def PoolState.setW (s : PoolState) (w : Nat) (st : WStatus) : PoolState :=
  { s with workers := s.workers.set w st }

/-- Scheduler actions: which worker runs and which ready `select` case or
subprocess outcome occurs. -/
inductive PoolAction where
  | pull : Nat → PoolAction
  | observeCancel : Nat → PoolAction
  | finishOk : Nat → PoolAction
  | finishFail : Nat → PoolAction

/-- One scheduler step; `none` means the action is not enabled. `pull` is
the `case fn := <-ch` branch: the channel is closed, so it is always
ready — receiving from the drained channel yields `""` and the worker
returns nil, otherwise the worker begins optimizing the next item (even
when cancellation is already in effect, since Go picks among ready select
cases at random). `observeCancel` is the `case <-ctxt.Done()` branch,
ready only after cancellation, returning `ctxt.Err()`. The finish actions
are the two outcomes of the in-flight `optimizeImage` call. -/
def step (s : PoolState) : PoolAction → Option PoolState
  | PoolAction.pull w =>
    match s.getW w with
    | some WStatus.selecting =>
      match s.queue with
      | [] => some (s.setW w (WStatus.exited none))
      | i :: rest =>
        some { s.setW w (WStatus.running i) with
                 queue := rest,
                 startedAfterCancel :=
                   s.startedAfterCancel + (if s.canceled then 1 else 0) }
    | _ => none
  | PoolAction.observeCancel w =>
    match s.getW w with
    | some WStatus.selecting =>
      if s.canceled then
        some (recordErr (s.setW w (WStatus.exited (some PoolErr.canceled))) PoolErr.canceled)
      else none
    | _ => none
  | PoolAction.finishOk w =>
    match s.getW w with
    | some (WStatus.running _) => some (s.setW w WStatus.selecting)
    | _ => none
  | PoolAction.finishFail w =>
    match s.getW w with
    | some (WStatus.running i) =>
      some (recordErr (s.setW w (WStatus.exited (some (PoolErr.fail i)))) (PoolErr.fail i))
    | _ => none

/-- Run a full schedule from a state; `none` if any action is not enabled. -/
def runPool (s : PoolState) : List PoolAction → Option PoolState
  | [] => some s
  | a :: acts =>
    match step s a with
    | some s' => runPool s' acts
    | none => none

/-- Initial pool state: `n` workers entering their select loop, the
channel preloaded with `items` and closed. -/
def initPool (n : Nat) (items : List Nat) : PoolState :=
  ⟨items, false, none, [], List.replicate n WStatus.selecting, 0⟩

/-- Whether every worker goroutine has returned, so `eg.Wait()` unblocks. -/
def allExited (s : PoolState) : Bool :=
  s.workers.all fun st => match st with | WStatus.exited _ => true | _ => false

/-- Value returned by `eg.Wait()`: the recorded first error. -/
def waitResult (s : PoolState) : Option PoolErr := s.firstErr

/-- Invariant maintained by every pool schedule: the error `eg.Wait` will
report is the first error any worker returned, cancellation is in effect
exactly once an error is recorded, and the first recorded error is a
transformation failure (never the cancellation sentinel, which can only
be returned after cancellation and hence after a first error). -/
def PoolInv (s : PoolState) : Prop :=
  s.firstErr = s.errLog.head? ∧
  s.canceled = s.firstErr.isSome ∧
  (∀ e, s.errLog.head? = some e → ∃ i, e = PoolErr.fail i)

/-- Final state of the two-worker schedule where worker 0 pulls item 0 and
fails on it, then worker 1 observes cancellation: used as a concrete
evaluation point. -/
def poolFinal : PoolState :=
  ⟨[1], true, some (PoolErr.fail 0), [PoolErr.fail 0, PoolErr.canceled],
   [WStatus.exited (some (PoolErr.fail 0)), WStatus.exited (some PoolErr.canceled)], 0⟩

/-- Sample one-entry callback map: `echo` returns its argument list. -/
def sampleCallbacks : IpcCallbackMap :=
  [("echo", fun args => Except.ok (Jval.arr args))]

/-! ### Association list and option lemmas -/

theorem orD_none {α : Type} (o : Option α) : orD o none = o := by
  cases o <;> rfl

theorem orD_assoc {α : Type} (a b c : Option α) :
    orD (orD a b) c = orD a (orD b c) := by
  cases a <;> rfl

theorem orD_if_none {α : Type} (c : Prop) [Decidable c] (x : α) (y : Option α) :
    orD (if c then some x else none) y = if c then some x else y := by
  by_cases h : c <;> simp [h, orD]

theorem map_orD {α β : Type} (f : α → β) (a b : Option α) :
    (orD a b).map f = orD (a.map f) (b.map f) := by
  cases a <;> rfl

theorem map_if_none {α β : Type} (f : α → β) (c : Prop) [Decidable c] (x : α) :
    (if c then some x else none).map f = if c then some (f x) else none := by
  by_cases h : c <;> simp [h]

theorem lookupA_setA {α : Type} (l : List (String × α)) (k k' : String) (v : α) :
    lookupA (setA l k v) k' = if k = k' then some v else lookupA l k' := by
  induction l with
  | nil => simp [setA, lookupA]
  | cons hd tl ih =>
    obtain ⟨a, b⟩ := hd
    by_cases hak : a = k
    · subst hak
      simp only [setA, if_pos rfl, lookupA]
      by_cases hk' : a = k' <;> simp [hk']
    · simp only [setA, if_neg hak, lookupA, ih]
      by_cases hak' : a = k'
      · subst hak'
        rw [if_pos rfl, if_pos rfl, if_neg (Ne.symm hak)]
      · simp [hak']

theorem lookupA_eq_none {α : Type} (l : List (String × α)) (k : String) :
    lookupA l k = none ↔ k ∉ l.map Prod.fst := by
  induction l with
  | nil => simp [lookupA]
  | cons hd tl ih =>
    simp only [lookupA, List.map_cons, List.mem_cons]
    by_cases h : hd.1 = k
    · simp [h]
    · simp [h, ih, Ne.symm h]

theorem lookupA_append {α : Type} (l1 l2 : List (String × α)) (k : String) :
    lookupA (l1 ++ l2) k = orD (lookupA l1 k) (lookupA l2 k) := by
  induction l1 with
  | nil => simp [lookupA, orD]
  | cons hd tl ih =>
    by_cases h : hd.1 = k <;> simp [lookupA, h, ih, orD]

theorem setA_append_of_absent {α : Type} (l : List (String × α)) (k : String) (v : α)
    (h : lookupA l k = none) : setA l k v = l ++ [(k, v)] := by
  induction l with
  | nil => simp [setA]
  | cons hd tl ih =>
    by_cases hk : hd.1 = k
    · simp [lookupA, hk] at h
    · obtain ⟨a, b⟩ := hd
      simp only [lookupA] at h
      rw [if_neg hk] at h
      simp [setA, hk, ih h]

theorem lookupA_perm {α : Type} {l1 l2 : List (String × α)} (p : l1.Perm l2)
    (hnd : (l1.map Prod.fst).Nodup) (k : String) :
    lookupA l1 k = lookupA l2 k := by
  induction p with
  | nil => rfl
  | cons x p ih =>
    simp only [List.map_cons, List.nodup_cons] at hnd
    by_cases h : x.1 = k <;> simp [lookupA, h, ih hnd.2]
  | swap x y l =>
    simp only [List.map_cons, List.nodup_cons, List.mem_cons] at hnd
    have hxy : y.1 ≠ x.1 := fun h => hnd.1 (Or.inl h)
    by_cases h1 : y.1 = k
    · subst h1
      simp [lookupA, Ne.symm hxy]
    · by_cases h2 : x.1 = k <;> simp [lookupA, h1, h2]
  | trans p1 p2 ih1 ih2 =>
    have hnd2 := ((p1.map Prod.fst).nodup_iff).mp hnd
    exact (ih1 hnd).trans (ih2 hnd2)

/-! ### Digest length lemmas -/

theorem length_leBytes (v k : Nat) : (leBytes v k).length = k := by
  simp [leBytes]

theorem length_md5sum (msg : List Nat) : (md5sum msg).length = 16 := by
  simp [md5sum, length_leBytes]

theorem length_bytesToHex (bs : List Nat) : (bytesToHex bs).length = 2 * bs.length := by
  induction bs with
  | nil => rfl
  | cons b bs ih =>
    simp only [bytesToHex, List.foldr] at ih ⊢
    simp [ih]
    ring

theorem length_md5hex (msg : List Nat) : (md5hex msg).length = 32 := by
  simp [md5hex, length_bytesToHex, length_md5sum]

theorem goSlice_of_le (s : String) (n : Nat) (h : n ≤ s.length) :
    goSlice s n = some (String.mk (s.toList.take n)) := by
  simp [goSlice, h]

theorem length_fpathHash (n : String) : (fpathHash n).length = 32 :=
  length_md5hex _

/-! ### Pack state characterization -/

theorem packList_cons (p : Pack) (op : String × List Nat)
    (rest : List (String × List Nat)) :
    Pack.packList p (op :: rest) = Pack.packList (p.pack op.1 op.2) rest := rfl

theorem packList_manifest (ops : List (String × List Nat)) (p : Pack) :
    (Pack.packList p ops).manifest = p.manifest := by
  induction ops generalizing p with
  | nil => rfl
  | cons op rest ih => rw [packList_cons, ih]; rfl

theorem lookupA_packList_fs (ops : List (String × List Nat)) (p : Pack) (key : String) :
    lookupA (Pack.packList p ops).fs key = orD (lastPacked ops key) (lookupA p.fs key) := by
  induction ops generalizing p with
  | nil => simp [Pack.packList, lastPacked, orD]
  | cons op rest ih =>
    rw [packList_cons, ih]
    show orD (lastPacked rest key) (lookupA (setA p.fs (normalize op.1) op.2) key) = _
    rw [lookupA_setA, ← orD_if_none, ← orD_assoc]
    rfl

theorem lookupA_packList_h (ops : List (String × List Nat)) (p : Pack) (key : String) :
    lookupA (Pack.packList p ops).h key =
      orD ((lastPacked ops key).map md5hex) (lookupA p.h key) := by
  induction ops generalizing p with
  | nil => simp [Pack.packList, lastPacked, orD]
  | cons op rest ih =>
    rw [packList_cons, ih]
    show orD ((lastPacked rest key).map md5hex)
        (lookupA (setA p.h (normalize op.1) (md5hex op.2)) key) = _
    rw [lookupA_setA, ← orD_if_none, ← orD_assoc]
    have hmap : (lastPacked (op :: rest) key).map md5hex =
        orD ((lastPacked rest key).map md5hex)
          (if normalize op.1 = key then some (md5hex op.2) else none) := by
      show (orD (lastPacked rest key) _).map md5hex = _
      rw [map_orD, map_if_none]
    rw [hmap]

theorem lookupA_New_fs (ops : List (String × List Nat)) (key : String) :
    lookupA (Pack.New.packList ops).fs key = lastPacked ops key := by
  rw [lookupA_packList_fs]
  show orD _ (lookupA [] key) = _
  rw [show lookupA ([] : List (String × List Nat)) key = none from rfl, orD_none]

theorem lookupA_New_h (ops : List (String × List Nat)) (key : String) :
    lookupA (Pack.New.packList ops).h key = (lastPacked ops key).map md5hex := by
  rw [lookupA_packList_h]
  show orD _ (lookupA [] key) = _
  rw [show lookupA ([] : List (String × String)) key = none from rfl, orD_none]

theorem hstr_New (ops : List (String × List Nat)) (key : String) (b : List Nat)
    (h : lastPacked ops key = some b) :
    (Pack.New.packList ops).hstr key = md5hex b := by
  simp [Pack.hstr, lookupA_New_h, h]

theorem mem_walkKeys (p : Pack) (n : String) :
    n ∈ p.walkKeys ↔ n ∈ p.fs.map Prod.fst :=
  (List.perm_insertionSort _ _).mem_iff

theorem walkKeys_sorted (p : Pack) : p.walkKeys.Sorted (· ≤ ·) :=
  List.sorted_insertionSort _ _

theorem manifestEntries_spec (p : Pack) (keys : List String)
    (hlen : ∀ n ∈ keys, baseName n ≠ p.manifest → 6 ≤ (p.hstr n).length) :
    ∃ m, p.manifestEntries keys = some m ∧
      ∀ n, lookupA m n =
        if n ∈ keys ∧ baseName n ≠ p.manifest
        then some (String.mk ((fpathHash n).toList.take 6) ++ "." ++
                   String.mk ((p.hstr n).toList.take 6) ++ extName n)
        else none := by
  induction keys with
  | nil => exact ⟨[], rfl, fun n => by simp [lookupA]⟩
  | cons k rest ih =>
    obtain ⟨m, hm, hlook⟩ := ih fun n hn hb => hlen n (List.mem_cons_of_mem _ hn) hb
    by_cases hk : baseName k = p.manifest
    · have hcond : ∀ n, (n ∈ k :: rest ∧ baseName n ≠ p.manifest) ↔
          (n ∈ rest ∧ baseName n ≠ p.manifest) := by
        intro n
        constructor
        · rintro ⟨hmem, hp⟩
          rcases List.mem_cons.mp hmem with h | h
          · subst h; exact absurd hk hp
          · exact ⟨h, hp⟩
        · rintro ⟨hmem, hp⟩
          exact ⟨List.mem_cons_of_mem _ hmem, hp⟩
      refine ⟨m, by simp [Pack.manifestEntries, hk, hm], fun n => ?_⟩
      rw [hlook n]
      exact (if_congr (hcond n) rfl rfl).symm
    · have h6 : 6 ≤ (p.hstr k).length := hlen k (List.mem_cons_self _ _) hk
      have hfp : goSlice (fpathHash k) 6 =
          some (String.mk ((fpathHash k).toList.take 6)) :=
        goSlice_of_le _ _ (by rw [length_fpathHash]; omega)
      have hch : goSlice (p.hstr k) 6 =
          some (String.mk ((p.hstr k).toList.take 6)) := goSlice_of_le _ _ h6
      refine ⟨(k, String.mk ((fpathHash k).toList.take 6) ++ "." ++
               String.mk ((p.hstr k).toList.take 6) ++ extName k) :: m, ?_, fun n => ?_⟩
      · simp [Pack.manifestEntries, hk, hfp, hch, hm]
      · by_cases hn : k = n
        · subst hn
          simp [lookupA, List.mem_cons_self, hk]
        · have hcond : (n ∈ rest ∧ baseName n ≠ p.manifest) ↔
              (n ∈ k :: rest ∧ baseName n ≠ p.manifest) := by
            constructor
            · rintro ⟨hmem, hp⟩
              exact ⟨List.mem_cons_of_mem _ hmem, hp⟩
            · rintro ⟨hmem, hp⟩
              rcases List.mem_cons.mp hmem with h | h
              · exact absurd h.symm hn
              · exact ⟨h, hp⟩
          rw [show lookupA ((k, String.mk ((fpathHash k).toList.take 6) ++ "." ++
                String.mk ((p.hstr k).toList.take 6) ++ extName k) :: m) n =
              lookupA m n from if_neg hn, hlook n]
          exact if_congr hcond rfl rfl

theorem manifestEntries_mem (p : Pack) (keys : List String) (m : List (String × String))
    (hm : p.manifestEntries keys = some m) (n : String) :
    n ∈ m.map Prod.fst ↔ n ∈ keys ∧ baseName n ≠ p.manifest := by
  induction keys generalizing m with
  | nil =>
    obtain rfl : ([] : List (String × String)) = m := Option.some.inj hm
    simp
  | cons k rest ih =>
    by_cases hk : baseName k = p.manifest
    · rw [show p.manifestEntries (k :: rest) = p.manifestEntries rest from by
        simp [Pack.manifestEntries, hk]] at hm
      rw [ih m hm]
      constructor
      · rintro ⟨hmem, hp⟩
        exact ⟨List.mem_cons_of_mem _ hmem, hp⟩
      · rintro ⟨hmem, hp⟩
        rcases List.mem_cons.mp hmem with h | h
        · subst h; exact absurd hk hp
        · exact ⟨h, hp⟩
    · rw [show p.manifestEntries (k :: rest) =
          match goSlice (fpathHash k) 6, goSlice (p.hstr k) 6 with
          | some fh6, some ch6 =>
            (p.manifestEntries rest).map
              (fun m => (k, fh6 ++ "." ++ ch6 ++ extName k) :: m)
          | _, _ => none from by rw [Pack.manifestEntries, if_neg hk]] at hm
      cases hfp : goSlice (fpathHash k) 6 with
      | none => rw [hfp] at hm; cases hch : goSlice (p.hstr k) 6 <;> rw [hch] at hm <;> cases hm
      | some fh6 =>
        rw [hfp] at hm
        cases hch : goSlice (p.hstr k) 6 with
        | none => rw [hch] at hm; cases hm
        | some ch6 =>
          rw [hch] at hm
          cases hrest : p.manifestEntries rest with
          | none => rw [hrest] at hm; cases hm
          | some m' =>
            rw [hrest] at hm
            obtain rfl : (k, fh6 ++ "." ++ ch6 ++ extName k) :: m' = m :=
              Option.some.inj hm
            simp only [List.map_cons, List.mem_cons, ih m' hrest]
            constructor
            · rintro (h | ⟨hmem, hp⟩)
              · subst h; exact ⟨Or.inl rfl, hk⟩
              · exact ⟨Or.inr hmem, hp⟩
            · rintro ⟨h | h, hp⟩
              · exact Or.inl h
              · exact Or.inr ⟨h, hp⟩

theorem manifestEntries_cons_some (p : Pack) (k : String) (rest : List String)
    (m : List (String × String)) (hk : ¬baseName k = p.manifest)
    (hm : p.manifestEntries (k :: rest) = some m) :
    ∃ fh6 ch6 m', goSlice (fpathHash k) 6 = some fh6 ∧
      goSlice (p.hstr k) 6 = some ch6 ∧ p.manifestEntries rest = some m' ∧
      m = (k, fh6 ++ "." ++ ch6 ++ extName k) :: m' := by
  rw [show p.manifestEntries (k :: rest) =
      match goSlice (fpathHash k) 6, goSlice (p.hstr k) 6 with
      | some fh6, some ch6 =>
        (p.manifestEntries rest).map
          (fun m => (k, fh6 ++ "." ++ ch6 ++ extName k) :: m)
      | _, _ => none from by rw [Pack.manifestEntries, if_neg hk]] at hm
  cases hfp : goSlice (fpathHash k) 6 with
  | none => rw [hfp] at hm; cases hch : goSlice (p.hstr k) 6 <;> rw [hch] at hm <;> cases hm
  | some fh6 =>
    rw [hfp] at hm
    cases hch : goSlice (p.hstr k) 6 with
    | none => rw [hch] at hm; cases hm
    | some ch6 =>
      rw [hch] at hm
      cases hrest : p.manifestEntries rest with
      | none => rw [hrest] at hm; cases hm
      | some m' =>
        rw [hrest] at hm
        exact ⟨fh6, ch6, m', rfl, rfl, rfl, (Option.some.inj hm).symm⟩

theorem manifestEntries_keys_sublist (p : Pack) (keys : List String)
    (m : List (String × String)) (hm : p.manifestEntries keys = some m) :
    List.Sublist (m.map Prod.fst) keys := by
  induction keys generalizing m with
  | nil =>
    obtain rfl : ([] : List (String × String)) = m := Option.some.inj hm
    simp
  | cons k rest ih =>
    by_cases hk : baseName k = p.manifest
    · rw [show p.manifestEntries (k :: rest) = p.manifestEntries rest from by
        simp [Pack.manifestEntries, hk]] at hm
      exact (ih m hm).cons k
    · obtain ⟨fh6, ch6, m', _, _, hrest, rfl⟩ :=
        manifestEntries_cons_some p k rest m hk hm
      simpa using (ih m' hrest).cons₂ k

theorem manifestEntries_congr (p q : Pack) (keys : List String)
    (hman : p.manifest = q.manifest) (hh : ∀ n ∈ keys, p.hstr n = q.hstr n) :
    p.manifestEntries keys = q.manifestEntries keys := by
  induction keys with
  | nil => rfl
  | cons k rest ih =>
    rw [Pack.manifestEntries, Pack.manifestEntries, hman, hh k (List.mem_cons_self _ _),
        ih fun n hn => hh n (List.mem_cons_of_mem _ hn)]

/-! ### Canonical map order -/

instance : IsTrans (String × String) pleb := ⟨by
  rintro a b c (h1 | ⟨h1, h1'⟩) (h2 | ⟨h2, h2'⟩)
  · exact Or.inl (lt_trans h1 h2)
  · exact Or.inl (by rw [← h2]; exact h1)
  · exact Or.inl (by rw [h1]; exact h2)
  · exact Or.inr ⟨h1.trans h2, le_trans h1' h2'⟩⟩

instance : IsAntisymm (String × String) pleb := ⟨by
  rintro ⟨a1, a2⟩ ⟨b1, b2⟩ (h1 | ⟨h1, h1'⟩) (h2 | ⟨h2, h2'⟩)
  · exact absurd h2 (lt_asymm h1)
  · exact absurd (by rw [show b1 = a1 from h2] at h1; exact h1) (lt_irrefl a1)
  · exact absurd (by rw [show a1 = b1 from h1] at h2; exact h2) (lt_irrefl b1)
  · cases show a1 = b1 from h1
    cases le_antisymm (show a2 ≤ b2 from h1') (show b2 ≤ a2 from h2')
    rfl⟩

instance : IsTotal (String × String) pleb := ⟨by
  intro a b
  rcases lt_trichotomy a.1 b.1 with h | h | h
  · exact Or.inl (Or.inl h)
  · rcases le_total a.2 b.2 with h2 | h2
    · exact Or.inl (Or.inr ⟨h, h2⟩)
    · exact Or.inr (Or.inr ⟨h.symm, h2⟩)
  · exact Or.inr (Or.inl h)⟩

theorem sortPairs_perm (l : List (String × String)) : (sortPairs l).Perm l :=
  List.perm_insertionSort _ _

theorem sortPairs_sorted (l : List (String × String)) : (sortPairs l).Sorted pleb :=
  List.sorted_insertionSort _ _

theorem invertMap_invertMap (m : List (String × String)) (hs : m.Sorted pleb) :
    invertMap (invertMap m) = m := by
  have p2 : ((invertMap m).map Prod.swap).Perm ((m.map Prod.swap).map Prod.swap) :=
    (sortPairs_perm _).map _
  rw [List.map_map, show (m.map (Prod.swap ∘ Prod.swap)) = m from by
    simp [Prod.swap_swap]] at p2
  exact List.eq_of_perm_of_sorted ((sortPairs_perm _).trans p2) (sortPairs_sorted _) hs

theorem manifest_sorted_pleb (p : Pack) (m : List (String × String))
    (hwf : (p.fs.map Prod.fst).Nodup) (hm : p.Manifest = some m) :
    m.Sorted pleb := by
  have hkeys : List.Sublist (m.map Prod.fst) p.walkKeys :=
    manifestEntries_keys_sublist p _ m hm
  have hnd : p.walkKeys.Nodup := (List.perm_insertionSort _ _).nodup_iff.mpr hwf
  have hlt : p.walkKeys.Sorted (· < ·) := (walkKeys_sorted p).lt_of_le hnd
  have hmlt : (m.map Prod.fst).Sorted (· < ·) := hlt.sublist hkeys
  exact (List.pairwise_map.mp hmlt).imp fun h => Or.inl h

/-! ### Packing a fresh pack with pairwise distinct normalized names -/

theorem packList_append (p : Pack) (ops : List (String × List Nat))
    (hnd : (ops.map fun op => normalize op.1).Nodup)
    (hfs : ∀ op ∈ ops, lookupA p.fs (normalize op.1) = none)
    (hh : ∀ op ∈ ops, lookupA p.h (normalize op.1) = none) :
    (Pack.packList p ops).fs = p.fs ++ ops.map (fun op => (normalize op.1, op.2)) ∧
    (Pack.packList p ops).h =
      p.h ++ ops.map (fun op => (normalize op.1, md5hex op.2)) := by
  induction ops generalizing p with
  | nil => simp [Pack.packList]
  | cons op rest ih =>
    simp only [List.map_cons, List.nodup_cons] at hnd
    rw [packList_cons]
    have hfs1 : setA p.fs (normalize op.1) op.2 = p.fs ++ [(normalize op.1, op.2)] :=
      setA_append_of_absent _ _ _ (hfs op (List.mem_cons_self _ _))
    have hh1 : setA p.h (normalize op.1) (md5hex op.2) =
        p.h ++ [(normalize op.1, md5hex op.2)] :=
      setA_append_of_absent _ _ _ (hh op (List.mem_cons_self _ _))
    have hne : ∀ op' ∈ rest, normalize op.1 ≠ normalize op'.1 := by
      intro op' hop' heq
      exact hnd.1 (by rw [heq]; exact List.mem_map_of_mem _ hop')
    have hfs' : ∀ op' ∈ rest, lookupA (p.pack op.1 op.2).fs (normalize op'.1) = none := by
      intro op' hop'
      show lookupA (setA p.fs (normalize op.1) op.2) _ = none
      rw [hfs1, lookupA_append, hfs op' (List.mem_cons_of_mem _ hop')]
      show lookupA [(normalize op.1, op.2)] (normalize op'.1) = none
      simp only [lookupA]
      rw [if_neg (hne op' hop')]
    have hh' : ∀ op' ∈ rest, lookupA (p.pack op.1 op.2).h (normalize op'.1) = none := by
      intro op' hop'
      show lookupA (setA p.h (normalize op.1) (md5hex op.2)) _ = none
      rw [hh1, lookupA_append, hh op' (List.mem_cons_of_mem _ hop')]
      show lookupA [(normalize op.1, md5hex op.2)] (normalize op'.1) = none
      simp only [lookupA]
      rw [if_neg (hne op' hop')]
    obtain ⟨ihfs, ihh⟩ := ih (p.pack op.1 op.2) hnd.2 hfs' hh'
    constructor
    · rw [ihfs]
      show setA p.fs (normalize op.1) op.2 ++ _ = _
      rw [hfs1, List.append_assoc]
      rfl
    · rw [ihh]
      show setA p.h (normalize op.1) (md5hex op.2) ++ _ = _
      rw [hh1, List.append_assoc]
      rfl

theorem packList_New_fs (ops : List (String × List Nat))
    (hnd : (ops.map fun op => normalize op.1).Nodup) :
    (Pack.New.packList ops).fs = ops.map (fun op => (normalize op.1, op.2)) :=
  (packList_append Pack.New ops hnd (fun _ _ => rfl) (fun _ _ => rfl)).1

theorem packList_New_h (ops : List (String × List Nat))
    (hnd : (ops.map fun op => normalize op.1).Nodup) :
    (Pack.New.packList ops).h = ops.map (fun op => (normalize op.1, md5hex op.2)) :=
  (packList_append Pack.New ops hnd (fun _ _ => rfl) (fun _ _ => rfl)).2

/-! ### Worker pool invariant -/

theorem head?_append_of_some {α : Type} {l : List α} {f : α}
    (h : l.head? = some f) (e : α) : (l ++ [e]).head? = some f := by
  cases l with
  | nil => cases h
  | cons a t => exact h

theorem setW_inv {s : PoolState} (w : Nat) (st : WStatus) (hinv : PoolInv s) :
    PoolInv (s.setW w st) := hinv

theorem recordErr_of_some {s : PoolState} {f : PoolErr}
    (hf : s.firstErr = some f) (e : PoolErr) :
    recordErr s e = { s with errLog := s.errLog ++ [e] } := by
  unfold recordErr; rw [hf]

theorem recordErr_of_none {s : PoolState} (hf : s.firstErr = none) (e : PoolErr) :
    recordErr s e =
      { s with errLog := s.errLog ++ [e], firstErr := some e, canceled := true } := by
  unfold recordErr; rw [hf]

theorem recordErr_inv_of_some {s : PoolState} (hinv : PoolInv s) {f : PoolErr}
    (hf : s.firstErr = some f) (e : PoolErr) : PoolInv (recordErr s e) := by
  obtain ⟨h1, h2, h3⟩ := hinv
  have hhead : s.errLog.head? = some f := by rw [← h1, hf]
  rw [recordErr_of_some hf]
  refine ⟨?_, h2, ?_⟩
  · show s.firstErr = (s.errLog ++ [e]).head?
    rw [head?_append_of_some hhead e, hf]
  · intro e' he'
    show ∃ i, e' = PoolErr.fail i
    rw [show ((s.errLog ++ [e]).head? = some e') = (some f = some e') from by
      rw [head?_append_of_some hhead e]] at he'
    obtain rfl := Option.some.inj he'
    exact h3 _ hhead

theorem recordErr_inv_fail {s : PoolState} (hinv : PoolInv s) (i : Nat) :
    PoolInv (recordErr s (PoolErr.fail i)) := by
  obtain ⟨h1, h2, h3⟩ := hinv
  cases hf : s.firstErr with
  | some f => exact recordErr_inv_of_some ⟨h1, h2, h3⟩ hf _
  | none =>
    have hl : s.errLog = [] := List.head?_eq_none_iff.mp (by rw [← h1, hf])
    rw [recordErr_of_none hf]
    refine ⟨?_, rfl, ?_⟩
    · show some (PoolErr.fail i) = (s.errLog ++ [PoolErr.fail i]).head?
      rw [hl]; rfl
    · intro e he
      show ∃ j, e = PoolErr.fail j
      rw [hl] at he
      simp only [List.nil_append, List.head?_cons] at he
      exact ⟨i, (Option.some.inj he).symm⟩

theorem step_inv {s s' : PoolState} {a : PoolAction} (hinv : PoolInv s)
    (hstep : step s a = some s') : PoolInv s' := by
  cases a with
  | pull w =>
    simp only [step] at hstep
    cases hgw : s.getW w <;> rw [hgw] at hstep
    · cases hstep
    case some st =>
      cases st with
      | selecting =>
        cases hq : s.queue <;> rw [hq] at hstep <;> obtain rfl := Option.some.inj hstep
        · exact hinv
        · exact hinv
      | running i => cases hstep
      | exited r => cases hstep
  | observeCancel w =>
    simp only [step] at hstep
    cases hgw : s.getW w <;> rw [hgw] at hstep
    · cases hstep
    case some st =>
      cases st with
      | selecting =>
        by_cases hc : s.canceled = true
        · rw [if_pos hc] at hstep
          obtain rfl := Option.some.inj hstep
          obtain ⟨h1, h2, h3⟩ := hinv
          have hsome : s.firstErr.isSome = true := by rw [← h2]; exact hc
          obtain ⟨f, hf⟩ := Option.isSome_iff_exists.mp hsome
          exact recordErr_inv_of_some (setW_inv w _ ⟨h1, h2, h3⟩) hf _
        · rw [if_neg hc] at hstep; cases hstep
      | running i => cases hstep
      | exited r => cases hstep
  | finishOk w =>
    simp only [step] at hstep
    cases hgw : s.getW w <;> rw [hgw] at hstep
    · cases hstep
    case some st =>
      cases st with
      | selecting => cases hstep
      | running i => obtain rfl := Option.some.inj hstep; exact hinv
      | exited r => cases hstep
  | finishFail w =>
    simp only [step] at hstep
    cases hgw : s.getW w <;> rw [hgw] at hstep
    · cases hstep
    case some st =>
      cases st with
      | selecting => cases hstep
      | running i =>
        obtain rfl := Option.some.inj hstep
        exact recordErr_inv_fail (setW_inv w _ hinv) i
      | exited r => cases hstep

theorem runPool_inv {acts : List PoolAction} :
    ∀ {s s' : PoolState}, PoolInv s → runPool s acts = some s' → PoolInv s' := by
  induction acts with
  | nil =>
    intro s s' h hrun
    obtain rfl := Option.some.inj hrun
    exact h
  | cons a acts ih =>
    intro s s' h hrun
    simp only [runPool] at hrun
    cases hstep : step s a with
    | none => rw [hstep] at hrun; cases hrun
    | some s1 => rw [hstep] at hrun; exact ih (step_inv h hstep) hrun

theorem initPool_inv (n : Nat) (items : List Nat) : PoolInv (initPool n items) :=
  ⟨rfl, rfl, fun _ he => by cases he⟩

/-! ### Manifest of a pack built purely by pack operations -/

theorem Manifest_New_spec (ops : List (String × List Nat)) :
    ∃ m, (Pack.New.packList ops).Manifest = some m ∧
      ∀ n, lookupA m n =
        if n ∈ (Pack.New.packList ops).walkKeys ∧
           baseName n ≠ (Pack.New.packList ops).manifest
        then some (String.mk ((fpathHash n).toList.take 6) ++ "." ++
                   String.mk (((Pack.New.packList ops).hstr n).toList.take 6) ++ extName n)
        else none := by
  apply manifestEntries_spec
  intro n hn _
  have hmem : n ∈ (Pack.New.packList ops).fs.map Prod.fst := (mem_walkKeys _ n).mp hn
  have hne : lookupA (Pack.New.packList ops).fs n ≠ none :=
    fun hnone => ((lookupA_eq_none _ _).mp hnone) hmem
  rw [lookupA_New_fs] at hne
  cases hb' : lastPacked ops n with
  | none => exact absurd hb' hne
  | some b' =>
    rw [hstr_New ops n b' hb', length_md5hex]
    omega

/-! ### Claim theorems -/

/-- C9: a successful pack operation stores the entry under the name
normalized to a single leading slash — packing "foo", "/foo" and "//foo"
all write the same logical entry "/foo" — and the stored content hash is
computed (as MD5) from the payload bytes. -/
theorem claimC9 (p : Pack) (name : String) (buf : List Nat) :
    lookupA (p.pack name buf).fs (normalize name) = some buf ∧
    lookupA (p.pack name buf).h (normalize name) = some (md5hex buf) ∧
    normalize "foo" = "/foo" ∧ normalize "/foo" = "/foo" ∧
    normalize "//foo" = "/foo" ∧
    p.pack "foo" buf = p.pack "/foo" buf ∧
    p.pack "/foo" buf = p.pack "//foo" buf := by
  refine ⟨?_, ?_, by decide, by decide, by decide, ?_, ?_⟩
  · show lookupA (setA p.fs (normalize name) buf) (normalize name) = some buf
    rw [lookupA_setA, if_pos rfl]
  · show lookupA (setA p.h (normalize name) (md5hex buf)) (normalize name) =
      some (md5hex buf)
    rw [lookupA_setA, if_pos rfl]
  · unfold Pack.pack
    rw [show normalize "foo" = normalize "/foo" from by decide]
  · unfold Pack.pack
    rw [show normalize "/foo" = normalize "//foo" from by decide]

/-- C7 counterexample: a Pack built by `NewBase` over a base directory that
already holds a file `/a.txt` never added through `Pack` makes `Manifest()`
evaluate `p.h["/a.txt"][:6]` on the missing (empty) hash entry, which
panics (`none`) instead of returning a map or an error. -/
theorem claimC7_counterexample :
    (Pack.NewBase [("/a.txt", [97])]).Manifest = none := by decide

/-- C7 (amended): Manifest() returns a map without panicking for every Pack
whose stored files were all added through pack operations — in particular
every Pack reachable from `New` by pack calls. The claim fails only for
`NewBase` over a directory holding files never added via Pack, where the
`p.h[n][:6]` slice panics. -/
theorem claimC7 (ops : List (String × List Nat)) :
    ∃ m, (Pack.New.packList ops).Manifest = some m := by
  obtain ⟨m, hm, _⟩ := Manifest_New_spec ops
  exact ⟨m, hm⟩

/-- C6 counterexample: the packed entry `/sub/manifest.json` is not the
manifest's own serialized file, yet `Manifest()` omits it, because the
walk excludes every file whose base name equals the manifest filename. -/
theorem claimC6_counterexample :
    (Pack.New.pack "/sub/manifest.json" [98]).Manifest = some [] ∧
    "/sub/manifest.json" ∈ (Pack.New.pack "/sub/manifest.json" [98]).fs.map Prod.fst ∧
    "/sub/manifest.json" ∉ ([] : List (String × String)).map Prod.fst := by
  refine ⟨by decide, by decide, by simp⟩

/-- C6 (amended): the map returned by `Manifest()` has a key for exactly
the stored files whose base name differs from the configured manifest
filename; every file whose base name equals it — not only the manifest's
own serialized file — is omitted. -/
theorem claimC6 (p : Pack) (m : List (String × String))
    (hm : p.Manifest = some m) (n : String) :
    n ∈ m.map Prod.fst ↔ n ∈ p.fs.map Prod.fst ∧ baseName n ≠ p.manifest := by
  rw [manifestEntries_mem p p.walkKeys m hm n, mem_walkKeys]

set_option maxRecDepth 8000 in
/-- C6 witness: evaluated on a pack holding only `/js/app.js`. -/
theorem claimC6_witness :
    "/js/app.js" ∈ ([("/js/app.js", "41d794.0cc175.js")].map Prod.fst) ↔
      "/js/app.js" ∈ (Pack.New.pack "/js/app.js" [97]).fs.map Prod.fst ∧
      baseName "/js/app.js" ≠ (Pack.New.pack "/js/app.js" [97]).manifest :=
  claimC6 _ _ (by decide) _

/-- C1 counterexample: the entry packed with logical name
`/css/manifest.json` gets no key at all in the map returned by
`Manifest()` (the map is empty), so the map does not send its normalized
name to the claimed fingerprint. -/
theorem claimC1_counterexample :
    (Pack.New.pack "/css/manifest.json" [97]).Manifest = some [] ∧
    lookupA ([] : List (String × String)) (normalize "/css/manifest.json") ≠
      some (fingerprintSpec (normalize "/css/manifest.json") [97]) := by
  refine ⟨by decide, fun h => ?_⟩
  exact Option.noConfusion h

/-- C1 (amended): for every entry stored by a pack operation with logical
name `n` and current content bytes `b` whose base name differs from the
manifest filename, `Manifest()` maps the normalized name to
`hex(md5(name without leading slashes))[:6] ++ "." ++ hex(md5(b))[:6] ++ ext(name)`,
with the content hash recomputed from the stored bytes. Entries whose base
name equals the manifest filename are omitted from the map. -/
theorem claimC1 (ops : List (String × List Nat)) (name : String) (b : List Nat)
    (hlast : lastPacked ops (normalize name) = some b)
    (hexcl : baseName (normalize name) ≠ "manifest.json") :
    ∃ m, (Pack.New.packList ops).Manifest = some m ∧
      lookupA m (normalize name) = some (fingerprintSpec (normalize name) b) := by
  obtain ⟨m, hm, hlook⟩ := Manifest_New_spec ops
  refine ⟨m, hm, ?_⟩
  rw [hlook]
  have hman : (Pack.New.packList ops).manifest = "manifest.json" :=
    packList_manifest ops Pack.New
  have hmem : normalize name ∈ (Pack.New.packList ops).walkKeys := by
    rw [mem_walkKeys]
    by_contra hnot
    have hnone := (lookupA_eq_none _ _).mpr hnot
    rw [lookupA_New_fs, hlast] at hnone
    exact Option.noConfusion hnone
  rw [if_pos ⟨hmem, by rw [hman]; exact hexcl⟩, hstr_New ops _ b hlast]
  rfl

set_option maxRecDepth 8000 in
/-- C1 witness: evaluated on a pack holding only `/js/app.js`. -/
theorem claimC1_witness :
    ∃ m, (Pack.New.packList [("/js/app.js", [97])]).Manifest = some m ∧
      lookupA m (normalize "/js/app.js") =
        some (fingerprintSpec (normalize "/js/app.js") [97]) :=
  claimC1 _ _ _ (by decide) (by decide)

/-- C2: packing a fixed finite set of (logical name, content) pairs — the
names pairwise distinct after normalization — in any order yields the same
manifest map: fingerprints depend only on the name and bytes, and neither
packing order nor walk order leaks into the result. -/
theorem claimC2 (ops1 ops2 : List (String × List Nat)) (hperm : ops1.Perm ops2)
    (hnd : (ops1.map fun op => normalize op.1).Nodup) :
    (Pack.New.packList ops1).Manifest = (Pack.New.packList ops2).Manifest := by
  have hnd2 : (ops2.map fun op => normalize op.1).Nodup :=
    ((hperm.map _).nodup_iff).mp hnd
  have hfs1 := packList_New_fs ops1 hnd
  have hfs2 := packList_New_fs ops2 hnd2
  have hh1 := packList_New_h ops1 hnd
  have hh2 := packList_New_h ops2 hnd2
  have hkeysperm : ((Pack.New.packList ops1).fs.map Prod.fst).Perm
      ((Pack.New.packList ops2).fs.map Prod.fst) := by
    rw [hfs1, hfs2, List.map_map, List.map_map]
    exact hperm.map _
  have hkeys : (Pack.New.packList ops1).walkKeys = (Pack.New.packList ops2).walkKeys := by
    unfold Pack.walkKeys
    refine List.eq_of_perm_of_sorted
      ((List.perm_insertionSort _ _).trans
        (hkeysperm.trans (List.perm_insertionSort _ _).symm))
      (List.sorted_insertionSort _ _) (List.sorted_insertionSort _ _)
  have hstr_eq : ∀ n, (Pack.New.packList ops1).hstr n = (Pack.New.packList ops2).hstr n := by
    intro n
    unfold Pack.hstr
    rw [hh1, hh2]
    have hpermh : (ops1.map fun op => (normalize op.1, md5hex op.2)).Perm
        (ops2.map fun op => (normalize op.1, md5hex op.2)) := hperm.map _
    rw [lookupA_perm hpermh ?_ n]
    rw [List.map_map]
    exact hnd
  show (Pack.New.packList ops1).manifestEntries _ = (Pack.New.packList ops2).manifestEntries _
  rw [hkeys]
  exact manifestEntries_congr _ _ _
    (by rw [packList_manifest, packList_manifest]) (fun n _ => hstr_eq n)

set_option maxRecDepth 8000 in
/-- C2 witness: two entries packed in both orders give the same manifest. -/
theorem claimC2_witness :
    (Pack.New.packList [("/a.js", [97]), ("b.css", [98])]).Manifest =
      (Pack.New.packList [("b.css", [98]), ("/a.js", [97])]).Manifest :=
  claimC2 _ _ (List.Perm.swap _ _ _) (by decide)

/-- C8: for every pack state (with a well-formed store: no duplicate file
paths) whose manifest is injective, inverting `ManifestInverted()` again
yields exactly the original `Manifest()` map. -/
theorem claimC8 (p : Pack) (m : List (String × String))
    (hwf : (p.fs.map Prod.fst).Nodup) (hm : p.Manifest = some m)
    (hinj : (m.map Prod.snd).Nodup) :
    p.ManifestInverted = some (invertMap m) ∧ invertMap (invertMap m) = m := by
  refine ⟨by rw [Pack.ManifestInverted, hm]; rfl, ?_⟩
  exact invertMap_invertMap m (manifest_sorted_pleb p m hwf hm)

set_option maxRecDepth 8000 in
/-- C8 witness: evaluated on a pack holding only `/js/app.js`. -/
theorem claimC8_witness :
    (Pack.New.pack "/js/app.js" [97]).ManifestInverted =
      some (invertMap [("/js/app.js", "41d794.0cc175.js")]) ∧
    invertMap (invertMap [("/js/app.js", "41d794.0cc175.js")]) =
      [("/js/app.js", "41d794.0cc175.js")] :=
  claimC8 _ _ (by decide) (by decide) (by decide)

/-- C3 counterexample: with two workers and queue [0, 1], worker 0 pulls
item 0 and fails, which records the first error and cancels the shared
context; worker 1's select then has both cases ready and Go may pick the
channel receive, so worker 1 begins executing item 1 after cancellation —
the schedule is legal and ends with one item started after cancel. -/
theorem claimC3_counterexample :
    (runPool (initPool 2 [0, 1])
        [PoolAction.pull 0, PoolAction.finishFail 0, PoolAction.pull 1]).map
      (fun s => (s.canceled, s.startedAfterCancel)) = some (true, 1) := by decide

/-- C3 (amended): on every legal schedule the shared context is cancelled
exactly when a first error is recorded, the value `eg.Wait()` returns is
exactly the first error any worker returned (a transformation failure,
never an aggregate and never the cancellation sentinel), and a worker that
observes cancellation exits without pulling or starting another item.
What the original claim adds — that no item begins executing after
cancellation — fails, since a select with the channel still non-empty may
pick the receive case (see the counterexample). -/
theorem claimC3 (n : Nat) (items : List Nat) (acts : List PoolAction) (s : PoolState)
    (h : runPool (initPool n items) acts = some s) :
    waitResult s = s.errLog.head? ∧
    s.canceled = s.firstErr.isSome ∧
    (∀ e, s.errLog.head? = some e → ∃ i, e = PoolErr.fail i) ∧
    (∀ w t, step s (PoolAction.observeCancel w) = some t →
      t.queue = s.queue ∧ t.startedAfterCancel = s.startedAfterCancel) := by
  obtain ⟨h1, h2, h3⟩ := runPool_inv (initPool_inv n items) h
  refine ⟨h1, h2, h3, ?_⟩
  intro w t ht
  simp only [step] at ht
  cases hgw : s.getW w <;> rw [hgw] at ht
  · cases ht
  case some st =>
    cases st with
    | selecting =>
      by_cases hc : s.canceled = true
      · rw [if_pos hc] at ht
        obtain rfl := Option.some.inj ht
        cases hf : s.firstErr with
        | some f =>
          rw [recordErr_of_some (show (s.setW w (WStatus.exited
            (some PoolErr.canceled))).firstErr = some f from hf)]
          exact ⟨rfl, rfl⟩
        | none =>
          rw [recordErr_of_none (show (s.setW w (WStatus.exited
            (some PoolErr.canceled))).firstErr = none from hf)]
          exact ⟨rfl, rfl⟩
      · rw [if_neg hc] at ht
        cases ht
    | running i => cases ht
    | exited r => cases ht

/-- C3 witness: the amended properties evaluated at the end of a concrete
two-worker schedule in which item 0 fails and worker 1 then observes the
cancellation. -/
theorem claimC3_witness :
    waitResult poolFinal = poolFinal.errLog.head? ∧
    poolFinal.canceled = poolFinal.firstErr.isSome ∧
    (∀ e, poolFinal.errLog.head? = some e → ∃ i, e = PoolErr.fail i) ∧
    (∀ w t, step poolFinal (PoolAction.observeCancel w) = some t →
      t.queue = poolFinal.queue ∧
      t.startedAfterCancel = poolFinal.startedAfterCancel) :=
  claimC3 2 [0, 1]
    [PoolAction.pull 0, PoolAction.finishFail 0, PoolAction.observeCancel 1]
    poolFinal (by decide)

/-- C4: for every decoded request, a "call" whose params lack a string
"name" answers `{"error":"missing name in call"}`, one whose params lack a
list "args" answers `{"error":"missing args in call"}`, one naming an
unregistered callback answers `{"error":"invalid func name"}` (an error
value, not a panic), a successful call answers `{"result":<value>}`, any
type other than "list-functions" and "call" answers exactly
`{"error":"unknown request type"}`, and a connection with a decoded
request gets exactly one response. -/
theorem claimC4 (m : IpcCallbackMap) (v : IpcMsg) :
    ((∀ s, lookupA v.params "name" ≠ some (Jval.str s)) → v.type = "call" →
      handleMsg m v = [("error", Jval.str "missing name in call")]) ∧
    (∀ s, lookupA v.params "name" = some (Jval.str s) →
      (∀ l, lookupA v.params "args" ≠ some (Jval.arr l)) → v.type = "call" →
      handleMsg m v = [("error", Jval.str "missing args in call")]) ∧
    (∀ s l, lookupA v.params "name" = some (Jval.str s) →
      lookupA v.params "args" = some (Jval.arr l) → lookupA m s = none →
      v.type = "call" →
      handleMsg m v = [("error", Jval.str "invalid func name")]) ∧
    (∀ s l f r, lookupA v.params "name" = some (Jval.str s) →
      lookupA v.params "args" = some (Jval.arr l) → lookupA m s = some f →
      f l = Except.ok r → v.type = "call" →
      handleMsg m v = [("result", r)]) ∧
    (v.type ≠ "list-functions" → v.type ≠ "call" →
      handleMsg m v = [("error", Jval.str "unknown request type")]) ∧
    (∀ v', handleConn m (Except.ok v') = ConnOutcome.response (handleMsg m v')) := by
  refine ⟨?_, ?_, ?_, ?_, ?_, fun _ => rfl⟩
  · intro hname hty
    have hdc : doCall m v = Except.error "missing name in call" := by
      unfold doCall
      cases hl : lookupA v.params "name" with
      | none => rfl
      | some j =>
        cases j with
        | str s => exact absurd hl (hname s)
        | null => rfl
        | bool b => rfl
        | num i => rfl
        | arr l => rfl
        | obj o => rfl
    simp [handleMsg, hty, hdc]
  · intro s hname hargs hty
    have hdc : doCall m v = Except.error "missing args in call" := by
      unfold doCall
      rw [hname]
      cases hl : lookupA v.params "args" with
      | none => rfl
      | some j =>
        cases j with
        | arr l => exact absurd hl (hargs l)
        | null => rfl
        | bool b => rfl
        | num i => rfl
        | str t => rfl
        | obj o => rfl
    simp [handleMsg, hty, hdc]
  · intro s l hname hargs hfun hty
    have hdc : doCall m v = Except.error "invalid func name" := by
      unfold doCall
      rw [hname, hargs]
      change (match lookupA m s with
        | some f => f l
        | none => Except.error "invalid func name") = _
      rw [hfun]
    simp [handleMsg, hty, hdc]
  · intro s l f r hname hargs hfun hres hty
    have hdc : doCall m v = Except.ok r := by
      unfold doCall
      rw [hname, hargs]
      change (match lookupA m s with
        | some f => f l
        | none => Except.error "invalid func name") = _
      rw [hfun]
      exact hres
    simp [handleMsg, hty, hdc]
  · intro hty1 hty2
    simp [handleMsg, hty1, hty2]

/-- C4 witness: the five response behaviours evaluated against the sample
callback map on concrete requests. -/
theorem claimC4_witness :
    handleMsg sampleCallbacks ⟨"call", []⟩ =
      [("error", Jval.str "missing name in call")] ∧
    handleMsg sampleCallbacks ⟨"call", [("name", Jval.str "echo")]⟩ =
      [("error", Jval.str "missing args in call")] ∧
    handleMsg sampleCallbacks
        ⟨"call", [("name", Jval.str "nope"), ("args", Jval.arr [])]⟩ =
      [("error", Jval.str "invalid func name")] ∧
    handleMsg sampleCallbacks
        ⟨"call", [("name", Jval.str "echo"), ("args", Jval.arr [Jval.num 21])]⟩ =
      [("result", Jval.arr [Jval.num 21])] ∧
    handleMsg sampleCallbacks ⟨"bogus", []⟩ =
      [("error", Jval.str "unknown request type")] := by
  refine ⟨?_, ?_, ?_, ?_, ?_⟩
  · exact (claimC4 sampleCallbacks _).1 (fun s h => by simp [lookupA] at h) rfl
  · exact (claimC4 sampleCallbacks _).2.1 "echo" rfl
      (fun l h => by simp [lookupA] at h) rfl
  · exact (claimC4 sampleCallbacks _).2.2.1 "nope" [] rfl rfl
      (by simp [sampleCallbacks, lookupA]) rfl
  · exact (claimC4 sampleCallbacks _).2.2.2.1 "echo" [Jval.num 21] _ _ rfl rfl rfl rfl rfl
  · exact (claimC4 sampleCallbacks _).2.2.2.2.1 (by simp) (by simp)

/-- C5 counterexample:Contrary to the claim, a connection whose request
line is not well-formed JSON gets no `{"error":...}` response at all: the
handler logs the decode failure and returns, closing the connection with
nothing written. -/
theorem claimC5_counterexample :
    handleConn []
        (Except.error "invalid character 'x' looking for beginning of value") =
      ConnOutcome.closedNoResponse ∧
    ConnOutcome.closedNoResponse.wroteResponse = false :=
  ⟨rfl, rfl⟩

/-- C5 (amended): on a malformed request line the bridge logs the decode
error and closes the connection without writing any response — the
per-connection goroutine returns, so the bridge's accept loop and the
build keep running — while every successfully decoded request does get
exactly one response written back. -/
theorem claimC5 (m : IpcCallbackMap) (e : String) (v : IpcMsg) :
    handleConn m (Except.error e) = ConnOutcome.closedNoResponse ∧
    (handleConn m (Except.error e)).wroteResponse = false ∧
    (handleConn m (Except.ok v)).wroteResponse = true :=
  ⟨rfl, rfl, rfl⟩

/-- C10: a "list-functions" request against an empty callback map answers
`{"result":null}` — the nil Go slice encodes as JSON null, not as `[]` —
and against a non-empty map answers an array holding exactly the
registered callback names. -/
theorem claimC10 (m : IpcCallbackMap) (v : IpcMsg) (hty : v.type = "list-functions") :
    (m = [] → handleMsg m v = [("result", Jval.null)]) ∧
    (m ≠ [] → handleMsg m v = [("result", Jval.arr (m.map fun e => Jval.str e.1))]) := by
  constructor
  · intro hm
    subst hm
    simp [handleMsg, hty, goStringsJson]
  · intro hm
    have hkeys : m.map Prod.fst ≠ [] := by
      cases m with
      | nil => exact absurd rfl hm
      | cons a t => simp
    simp [handleMsg, hty, goStringsJson, hkeys, List.map_map, Function.comp]

/-- C10 witness: the empty and the sample callback maps evaluated on a
"list-functions" request. -/
theorem claimC10_witness :
    handleMsg ([] : IpcCallbackMap) ⟨"list-functions", []⟩ =
      [("result", Jval.null)] ∧
    handleMsg sampleCallbacks ⟨"list-functions", []⟩ =
      [("result", Jval.arr [Jval.str "echo"])] :=
  ⟨(claimC10 [] _ rfl).1 rfl,
   (claimC10 sampleCallbacks _ rfl).2 (List.cons_ne_nil _ _)⟩

set_option maxRecDepth 4000 in
/-- Sanity check of the embedded MD5 against the published digest of
"abc", confirming the implementation is the real algorithm. -/
theorem md5hexS_abc : md5hexS "abc" = "900150983cd24fb0d6963f7d28e17f72" := by decide

end Assetgen
